import Mathlib

/-!
Verification of the rns-page-node repository (src/rns_page_node/main.py)
against its natural-language specification.

The embedding below models the PageNode class: directory scanning
(`_scan_pages`, `_scan_files`), route registration (`register_pages`,
`register_files`), request serving (`serve_page`, `serve_file`,
`serve_default_index`), the statistics aggregator (`_record_request`,
`on_connect`, `_on_link_closed`) and the bounded recent-request ring
(`deque(maxlen=100)`).

Python strings are modelled as Lean `String`s, operating on their
character lists (Python indexes/slices strings by code point, which
matches `String.data`).  Python `bytes` contents are also modelled as
`String`s; the str/bytes type distinction matters only for dictionary
keys in the connection table, where it is modelled explicitly (`PyKey`).
File-system side effects (`open`, `os.listdir`, `os.access`) are modelled
by explicit tree / map arguments; `subprocess.run` is modelled by an
explicit executor function argument.  Logging and the stats *file*
(`_write_stats_event`) are I/O only and are outside the model.
-/

deriving instance DecidableEq for Except

namespace RnsPageNode

/-- Python `s.startswith(p)`: `p` is a character-wise leading piece of `s`. -/
def pyStartsWith (s p : String) : Bool := p.data.isPrefixOf s.data

/-- Python `s.endswith(p)`: `p` is a character-wise trailing piece of `s`. -/
def pyEndsWith (s p : String) : Bool := p.data.isSuffixOf s.data

/-- Python `len(s)` (code points). -/
def pyLen (s : String) : Nat := s.data.length

/-- Python `s[n:]` (code points). -/
def pySlice (s : String) (n : Nat) : String := ⟨s.data.drop n⟩

/-- Python `s.replace(old, new, 1)` on character lists: replace the first
occurrence of `old` (used by `serve_page` / `serve_file` to map the request
path onto the served directory). -/
def replaceFirstChars (old new : List Char) : List Char → List Char
  | [] => []
  | c :: rest =>
    if old.isPrefixOf (c :: rest) then new ++ (c :: rest).drop old.length
    else c :: replaceFirstChars old new rest

/-- Python `s.replace(old, new, 1)` on `String`. -/
def pyReplaceFirst (s old new : String) : String :=
  ⟨replaceFirstChars old.data new.data s.data⟩

/-- Split a character list at `/` separators, keeping empty segments
(the behaviour of splitting an absolute POSIX path). -/
def splitSlashChars : List Char → List (List Char)
  | [] => [[]]
  | c :: rest =>
    if c = '/' then [] :: splitSlashChars rest
    else
      match splitSlashChars rest with
      | [] => [[c]]
      | s :: ss => (c :: s) :: ss

/-- One step of POSIX path resolution over already-split segments:
empty and `.` segments vanish, `..` removes the previous segment
(at the root it is a no-op), anything else is appended. -/
def normStepSegs (acc : List (List Char)) (seg : List Char) : List (List Char) :=
  if seg = [] ∨ seg = ['.'] then acc
  else if seg = ['.', '.'] then acc.dropLast
  else acc ++ [seg]

/-- The canonical segment list of an absolute path string: what the
operating system resolves the path to (symlinks aside).  `serve_page`
performs no normalisation itself; this models what `open` actually opens. -/
def normSegments (s : String) : List (List Char) :=
  (splitSlashChars s.data).foldl normStepSegs []

/-- The resolved path `p` lies inside the resolved root (equal to it or
below it). -/
def withinRoot (root p : String) : Bool :=
  (normSegments root).isPrefixOf (normSegments p)

/-- A path segment that survives normalisation unchanged. -/
def plainSeg (seg : List Char) : Bool :=
  !(seg = [] ∨ seg = ['.'] ∨ seg = ['.', '.'] : Bool)

/-- A well-formed absolute directory path: leading `/`, and every
segment is plain (no `.`/`..`/empty segments).  The configured
`pagespath` / `filespath` roots are assumed to be of this shape. -/
def cleanAbsPath (base : String) : Bool :=
  match splitSlashChars base.data with
  | [] :: segs => segs.all plainSeg
  | _ => false

/-- A well-formed file-system entry name, as returned by `os.listdir`:
nonempty and without a path separator. -/
def goodName (n : String) : Bool :=
  !(n.data = [] : Bool) && !(n.data.contains '/')

/- ## The file-system tree handed to the directory scans -/

mutual

/-- One directory entry: a regular file (with its byte content and
executable bit) or a subdirectory. -/
inductive FSEntry : Type where
  | file (name : String) (content : String) (isExec : Bool)
  | dir (name : String) (children : FSList)

/-- A directory listing, in `os.listdir` order. -/
inductive FSList : Type where
  | nil
  | cons (e : FSEntry) (rest : FSList)

end

mutual

/-- `_scan_pages(base)` over a listing (main.py:104-112): entries whose
name starts with `.` are skipped entirely, directories are recursed into,
and regular files are collected unless they end in `.allowed`.
Returns the paths appended to `self.servedpages`, in order. -/
def scanPagesList (base : String) : FSList → List String
  | .nil => []
  | .cons e rest => scanPagesEntry base e ++ scanPagesList base rest

/-- `_scan_pages` on a single directory entry. -/
def scanPagesEntry (base : String) : FSEntry → List String
  | .file n _ _ =>
    if pyStartsWith n "." then []
    else if pyEndsWith n ".allowed" then []
    else [base ++ "/" ++ n]
  | .dir n cs =>
    if pyStartsWith n "." then []
    else scanPagesList (base ++ "/" ++ n) cs

end

mutual

/-- `_scan_files(base)` over a listing (main.py:114-122): hidden entries
are skipped, directories recursed, every other regular file collected. -/
def scanFilesList (base : String) : FSList → List String
  | .nil => []
  | .cons e rest => scanFilesEntry base e ++ scanFilesList base rest

/-- `_scan_files` on a single directory entry. -/
def scanFilesEntry (base : String) : FSEntry → List String
  | .file n _ _ =>
    if pyStartsWith n "." then [] else [base ++ "/" ++ n]
  | .dir n cs =>
    if pyStartsWith n "." then []
    else scanFilesList (base ++ "/" ++ n) cs

end

/- ## Specification-side characterisation of the scans -/

mutual

/-- All root-to-file name chains of a listing, in traversal order
(specification-side description, used to characterise the scans). -/
def chainsList : FSList → List (List String)
  | .nil => []
  | .cons e rest => chainsEntry e ++ chainsList rest

/-- All name chains of one entry. -/
def chainsEntry : FSEntry → List (List String)
  | .file n _ _ => [[n]]
  | .dir n cs => (chainsList cs).map (fun c => n :: c)

end

/-- No component of the chain is hidden (starts with the `.` marker). -/
def nonHidden (c : List String) : Bool :=
  c.all (fun n => !pyStartsWith n ".")

/-- The chain's file name (its last component). -/
def lastName : List String → String
  | [] => ""
  | [n] => n
  | _ :: rest => lastName rest

/-- A chain the page index keeps: nothing hidden and the file itself
does not carry the `.allowed` sidecar suffix. -/
def pageEligible (c : List String) : Bool :=
  nonHidden c && !pyEndsWith (lastName c) ".allowed"

/-- Join a name chain onto a base directory with `/` separators
(iterated `os.path.join`). -/
def joinChain (base : String) (c : List String) : String :=
  c.foldl (fun b n => b ++ "/" ++ n) base

mutual

/-- Every name in the listing is a well-formed `os.listdir` name. -/
def namesOkList : FSList → Bool
  | .nil => true
  | .cons e rest => namesOkEntry e && namesOkList rest

/-- Every name in the entry is a well-formed `os.listdir` name. -/
def namesOkEntry : FSEntry → Bool
  | .file n _ _ => goodName n
  | .dir n cs => goodName n && namesOkList cs

end

/- ## Serving requests -/

/-- The built-in home page text (main.py:20-23, `DEFAULT_INDEX`). -/
def DEFAULT_INDEX : String :=
  ">Default Home Page\n\nThis node is serving pages using page node, but the home page file (index.mu) was not found in the pages directory. Please add an index.mu file to customize the home page.\n"

/-- The built-in denial text (main.py:25-28, `DEFAULT_NOTALLOWED`). -/
def DEFAULT_NOTALLOWED : String :=
  ">Request Not Allowed\n\nYou are not authorised to carry out the request.\n"

/-- A regular file on disk: its bytes and its execute permission bit. -/
structure FileData where
  content : String
  isExec : Bool
deriving DecidableEq

/-- The files reachable by `open`, keyed by the canonical segment list
the operating system resolves a path to. -/
def FS : Type := List (List (List Char) × FileData)

/-- Look up the file a canonical path denotes (`open` succeeds iff this
is `some`). -/
def fsLookup (fs : FS) (p : List (List Char)) : Option FileData :=
  (fs.find? (fun e => e.1 == p)).map (fun e => e.2)

/-- The environment `subprocess.run` gives the child process: Python
passes the parent's whole environment when no `env` keyword is supplied. -/
def subprocessEnv (hostEnv : List (String × String)) :
    Option (List (String × String)) → List (String × String)
  | none => hostEnv
  | some e => e

/-- An executor for `subprocess.run([file_path], stdout=subprocess.PIPE)`:
given the canonical target path and the child environment, `none` means
the launch itself failed (raising in Python), `some (out, code)` is the
captured standard output and the exit status. -/
def Exec : Type :=
  List (List Char) → List (String × String) → Option (String × Int)

/-- `serve_page`'s mapping from request path to filesystem path
(main.py:281): `path.replace("/page", self.pagespath, 1)`. -/
def pageFilePath (pagespath path : String) : String :=
  pyReplaceFirst path "/page" pagespath

/-- `serve_file`'s mapping from request path to filesystem path
(main.py:300): `path.replace("/file", self.filespath, 1)`. -/
def fileFilePath (filespath path : String) : String :=
  pyReplaceFirst path "/file" filespath

/-- `serve_page` (main.py:279-296), minus the stats side effect (modelled
separately by `recordRequest`).  The request `data` payload is a parameter
because the handler receives it — the code never reads it.  Errors are the
exceptions the Python function lets escape. -/
def servePage (fs : FS) (hostEnv : List (String × String)) (ex : Exec)
    (pagespath path : String) (data : Option (List (String × String))) :
    Except String String :=
  let file_path := pageFilePath pagespath path
  match fsLookup fs (normSegments file_path) with
  | none => Except.error "FileNotFoundError"
  | some fd =>
    if pyStartsWith fd.content "#!" && fd.isExec then
      match ex (normSegments file_path) (subprocessEnv hostEnv none) with
      | some (out, _) => Except.ok out
      | none => Except.ok fd.content
    else Except.ok fd.content

/-- `os.path.basename`: everything after the last `/`. -/
def pyBasename (s : String) : String :=
  ⟨(splitSlashChars s.data).getLastD []⟩

/-- `serve_file` (main.py:298-301), minus the stats side effect: a stream
over the file plus its basename header, or the escaping exception. -/
def serveFile (fs : FS) (filespath path : String) :
    Except String (String × String) :=
  let file_path := fileFilePath filespath path
  match fsLookup fs (normSegments file_path) with
  | none => Except.error "FileNotFoundError"
  | some fd => Except.ok (fd.content, pyBasename file_path)

/-- The routes `register_pages` registers for `serve_page`
(main.py:80-87): `"/page" + full_path[len(pagespath):]` for each scanned
page. -/
def pageRoutes (pagespath : String) (t : FSList) : List String :=
  (scanPagesList pagespath t).map
    (fun full => "/page" ++ pySlice full (pyLen pagespath))

/-- The routes `register_files` registers for `serve_file`
(main.py:94-102). -/
def fileRoutes (filespath : String) (t : FSList) : List String :=
  (scanFilesList filespath t).map
    (fun full => "/file" ++ pySlice full (pyLen filespath))

/-- The root directory's `index.mu` regular file, if any
(`os.path.isfile(os.path.join(self.pagespath, "index.mu"))`,
main.py:73). -/
def rootIndexFile : FSList → Option FileData
  | .nil => none
  | .cons (.file n content isEx) rest =>
    if n = "index.mu" then some ⟨content, isEx⟩ else rootIndexFile rest
  | .cons (.dir _ _) rest => rootIndexFile rest

/-- Whether a real home page file exists at the pages root. -/
def hasIndexFile (t : FSList) : Bool := (rootIndexFile t).isSome

/-- Dispatch of a page request through the handler table built by
`register_pages` (main.py:68-87): scanned pages are registered for
`serve_page`; `/page/index.mu` is additionally registered for
`serve_default_index` when no real index file exists; any other path has
no handler (`none` — the transport library never calls this node). -/
def dispatchPage (fs : FS) (hostEnv : List (String × String)) (ex : Exec)
    (pagespath : String) (t : FSList) (path : String)
    (data : Option (List (String × String))) : Option (Except String String) :=
  if path ∈ pageRoutes pagespath t then
    some (servePage fs hostEnv ex pagespath path data)
  else if hasIndexFile t = false ∧ path = "/page/index.mu" then
    some (Except.ok DEFAULT_INDEX)
  else none

/-- The successive values of `self.servedpages` during `register_pages`
(main.py:68-71): the old list before the critical section, the empty list
right after `self.servedpages = []`, and each prefix of the scan result
after each `append` performed by `_scan_pages` — the list is rebuilt in
place, one element at a time. -/
def registerPagesTrace (old scanned : List String) : List (List String) :=
  old :: (List.range (scanned.length + 1)).map (fun i => scanned.take i)

/- ## Statistics -/

/-- Appending to `collections.deque(maxlen=100)` (main.py:135): when the
deque is full the oldest (leftmost) element is evicted. -/
def pushRing {α : Type} (cap : Nat) (q : List α) (x : α) : List α :=
  if q.length < cap then q ++ [x] else q.tail ++ [x]

/-- One entry of the recent-request ring (the `request_info` dictionary,
main.py:250-257). -/
structure RequestInfo where
  rtype : String
  path : String
  peer : String
  peerHash : String
  timestamp : Nat
  datetimeStr : String
deriving DecidableEq

/-- One value of the `connected_peers` table (main.py:329-334). -/
structure PeerInfo where
  peerHash : String
  peerDisplay : String
  connectedAt : Nat
  linkId : String
deriving DecidableEq

/-- A Python dictionary key: the `connected_peers` table is keyed by
`str` hex representations, while `_on_link_closed` probes it with the raw
`bytes` link id; in Python a `bytes` value never equals a `str` key, which
the two disjoint constructors model. -/
inductive PyKey : Type where
  | str : String → PyKey
  | bytes : List Nat → PyKey
deriving DecidableEq

/-- The opaque time-formatting calls (`datetime.fromtimestamp(...)`
`.strftime`/`.isoformat`, main.py:256-263). -/
structure TimeFmt where
  hourKey : Nat → String
  dayKey : Nat → String
  isoStr : Nat → String

/-- The in-memory `self.stats` dictionary (main.py:124-139).
`hourly_stats`/`daily_stats` values `{'pages': _, 'files': _}` are split
into two counters per bucket. -/
structure Stats where
  startTime : Nat
  totalConnections : Nat
  activeConnections : Int
  totalPageRequests : Nat
  totalFileRequests : Nat
  pageRequestsByPath : String → Nat
  fileRequestsByPath : String → Nat
  requestsByPeer : String → Nat
  recentRequests : List RequestInfo
  connectedPeers : List (PyKey × PeerInfo)
  hourlyPages : String → Nat
  hourlyFiles : String → Nat
  dailyPages : String → Nat
  dailyFiles : String → Nat

/-- `_init_stats` (main.py:124-139): all counters zero, both tables
empty. -/
def initStats (t0 : Nat) : Stats :=
  { startTime := t0
    totalConnections := 0
    activeConnections := 0
    totalPageRequests := 0
    totalFileRequests := 0
    pageRequestsByPath := fun _ => 0
    fileRequestsByPath := fun _ => 0
    requestsByPeer := fun _ => 0
    recentRequests := []
    connectedPeers := []
    hourlyPages := fun _ => 0
    hourlyFiles := fun _ => 0
    dailyPages := fun _ => 0
    dailyFiles := fun _ => 0 }

/-- `defaultdict(int)` increment: `d[k] += 1`. -/
def bump (f : String → Nat) (k : String) : String → Nat :=
  fun x => if x = k then f x + 1 else f x

/-- The peer hash / display pair computed at the top of `_record_request`
(main.py:224-237) and duplicated in `on_connect` (main.py:311-324).  A
remote identity is modelled by its hex hash string; `appData` models
`RNS.Identity.recall_app_data` (already decoded, `none` when absent or
failing). -/
def peerStrings (appData : String → Option String) :
    Option String → String × String
  | some h =>
    (h, match appData h with
        | some ad => ad.take 32
        | none => h.take 16 ++ "...")
  | none => ("anonymous", "anonymous")

/-- `_record_request` (main.py:220-273), minus the stats-file write
(`_write_stats_event`, pure file I/O). -/
def recordRequest (appData : String → Option String) (fmt : TimeFmt)
    (request_type path : String) (remoteIdentity : Option String)
    (requested_at : Nat) (s : Stats) : Stats :=
  let ph := peerStrings appData remoteIdentity
  let s1 :=
    if request_type = "page" then
      { s with totalPageRequests := s.totalPageRequests + 1
               pageRequestsByPath := bump s.pageRequestsByPath path }
    else if request_type = "file" then
      { s with totalFileRequests := s.totalFileRequests + 1
               fileRequestsByPath := bump s.fileRequestsByPath path }
    else s
  let s2 := { s1 with requestsByPeer := bump s1.requestsByPeer ph.1 }
  let info : RequestInfo :=
    ⟨request_type, path, ph.2, ph.1, requested_at, fmt.isoStr requested_at⟩
  let s3 := { s2 with recentRequests := pushRing 100 s2.recentRequests info }
  let hk := fmt.hourKey requested_at
  let dk := fmt.dayKey requested_at
  if request_type = "page" then
    { s3 with hourlyPages := bump s3.hourlyPages hk
              dailyPages := bump s3.dailyPages dk }
  else if request_type = "file" then
    { s3 with hourlyFiles := bump s3.hourlyFiles hk
              dailyFiles := bump s3.dailyFiles dk }
  else s3

/- ## Connections -/

/-- The parts of an `RNS.Link` the node reads: `link_id` (raw bytes,
absent when the object lacks the attribute) and the remote identity's
hash hex string, if any. -/
structure Link where
  linkId : Option (List Nat)
  remoteIdentity : Option String

/-- A hex digit character, lower case. -/
def hexDigit (n : Nat) : Char :=
  if n < 10 then Char.ofNat (48 + n) else Char.ofNat (87 + n)

/-- `RNS.hexrep(b, delimit=False)`: lower-case hex of a byte string. -/
def hexrep (b : List Nat) : String :=
  ⟨b.flatMap (fun x => [hexDigit (x / 16 % 16), hexDigit (x % 16)])⟩

/-- Python dictionary assignment `d[k] = v`: replace the value when the
key exists, otherwise append the pair. -/
def pyDictSet (d : List (PyKey × PeerInfo)) (k : PyKey) (v : PeerInfo) :
    List (PyKey × PeerInfo) :=
  if d.any (fun e => e.1 == k) then
    d.map (fun e => if e.1 == k then (k, v) else e)
  else d ++ [(k, v)]

/-- `on_connect` (main.py:303-350), minus logging and the stats-file
write: bump the connection counters and record the peer under the *hex
string* of its link id (or `"unknown"` when the link has no `link_id`
attribute). -/
def onConnect (appData : String → Option String) (l : Link) (t : Nat)
    (s : Stats) : Stats :=
  let s1 := { s with totalConnections := s.totalConnections + 1
                     activeConnections := s.activeConnections + 1 }
  let ph := peerStrings appData l.remoteIdentity
  let link_id_hex := match l.linkId with
    | some b => hexrep b
    | none => "unknown"
  let v : PeerInfo := ⟨ph.1, ph.2, t, link_id_hex⟩
  { s1 with connectedPeers := pyDictSet s1.connectedPeers (PyKey.str link_id_hex) v }

/-- `_on_link_closed` (main.py:352-358): only when the raw `bytes` link
id occurs among the table's keys is the entry popped and the active count
decremented (clamped at zero).  A link without the attribute raises before
mutating anything, leaving the state unchanged. -/
def onLinkClosed (l : Link) (s : Stats) : Stats :=
  match l.linkId with
  | none => s
  | some b =>
    if s.connectedPeers.any (fun e => e.1 == PyKey.bytes b) then
      { s with
          connectedPeers :=
            s.connectedPeers.filter (fun e => !(e.1 == PyKey.bytes b))
          activeConnections := max 0 (s.activeConnections - 1) }
    else s

/-- A connection-lifecycle event delivered by the transport library. -/
inductive NodeEvent : Type where
  | connect (l : Link) (t : Nat)
  | close (l : Link)

/-- Apply one lifecycle event to the stats. -/
def applyEvent (appData : String → Option String) (s : Stats) :
    NodeEvent → Stats
  | .connect l t => onConnect appData l t s
  | .close l => onLinkClosed l s

/-- Run a sequence of lifecycle events. -/
def runEvents (appData : String → Option String) (s : Stats)
    (evs : List NodeEvent) : Stats :=
  evs.foldl (applyEvent appData) s

end RnsPageNode


namespace RnsPageNode

/- ## Lemmas about chains and the scans -/

theorem lastName_cons {n : String} {c : List String} (h : c ≠ []) :
    lastName (n :: c) = lastName c := by
  cases c with
  | nil => exact absurd rfl h
  | cons x xs => rfl

theorem pageEligible_cons {n : String} {c : List String} (h : c ≠ []) :
    pageEligible (n :: c) = ((!pyStartsWith n ".") && pageEligible c) := by
  unfold pageEligible
  rw [lastName_cons h]
  unfold nonHidden
  rw [List.all_cons, Bool.and_assoc]

theorem nonHidden_cons (n : String) (c : List String) :
    nonHidden (n :: c) = ((!pyStartsWith n ".") && nonHidden c) := by
  unfold nonHidden
  rw [List.all_cons]

theorem joinChain_cons (base n : String) (c : List String) :
    joinChain base (n :: c) = joinChain (base ++ "/" ++ n) c := rfl

mutual

theorem chainsList_ne_nil (es : FSList) : ∀ c ∈ chainsList es, c ≠ [] := by
  match es with
  | .nil => intro c hc; simp [chainsList] at hc
  | .cons e rest =>
    intro c hc
    rw [chainsList, List.mem_append] at hc
    cases hc with
    | inl h => exact chainsEntry_ne_nil e c h
    | inr h => exact chainsList_ne_nil rest c h

theorem chainsEntry_ne_nil (e : FSEntry) : ∀ c ∈ chainsEntry e, c ≠ [] := by
  match e with
  | .file n content isEx =>
    intro c hc
    rw [chainsEntry, List.mem_singleton] at hc
    subst hc; simp
  | .dir n cs =>
    intro c hc
    rw [chainsEntry, List.mem_map] at hc
    obtain ⟨c', _, rfl⟩ := hc
    simp

end

mutual

theorem scanPagesList_eq_chains (base : String) (es : FSList) :
    scanPagesList base es =
      ((chainsList es).filter pageEligible).map (joinChain base) := by
  match es with
  | .nil => rw [scanPagesList, chainsList]; rfl
  | .cons e rest =>
    rw [scanPagesList, chainsList, List.filter_append, List.map_append,
        scanPagesEntry_eq_chains base e, scanPagesList_eq_chains base rest]

theorem scanPagesEntry_eq_chains (base : String) (e : FSEntry) :
    scanPagesEntry base e =
      ((chainsEntry e).filter pageEligible).map (joinChain base) := by
  match e with
  | .file n content isEx =>
    rw [scanPagesEntry, chainsEntry]
    by_cases h1 : pyStartsWith n "."
    · simp [h1, pageEligible, nonHidden, lastName]
    · by_cases h2 : pyEndsWith n ".allowed"
      · simp [h1, h2, pageEligible, nonHidden, lastName]
      · simp [h1, h2, pageEligible, nonHidden, lastName, joinChain]
  | .dir n cs =>
    rw [scanPagesEntry, chainsEntry]
    by_cases h1 : pyStartsWith n "."
    · rw [if_pos h1]
      rw [List.filter_map, List.map_map]
      have : (chainsList cs).filter (pageEligible ∘ (fun c => n :: c)) = [] := by
        rw [List.filter_eq_nil_iff]
        intro c hc
        rw [Function.comp_apply,
            pageEligible_cons (chainsList_ne_nil cs c hc)]
        simp [h1]
      rw [this]; rfl
    · rw [if_neg h1, scanPagesList_eq_chains (base ++ "/" ++ n) cs]
      rw [List.filter_map, List.map_map]
      have hf : (chainsList cs).filter (pageEligible ∘ (fun c => n :: c)) =
          (chainsList cs).filter pageEligible := by
        apply List.filter_congr
        intro c hc
        rw [Function.comp_apply,
            pageEligible_cons (chainsList_ne_nil cs c hc)]
        simp [h1]
      rw [hf]
      rfl

end

mutual

theorem scanFilesList_eq_chains (base : String) (es : FSList) :
    scanFilesList base es =
      ((chainsList es).filter nonHidden).map (joinChain base) := by
  match es with
  | .nil => rw [scanFilesList, chainsList]; rfl
  | .cons e rest =>
    rw [scanFilesList, chainsList, List.filter_append, List.map_append,
        scanFilesEntry_eq_chains base e, scanFilesList_eq_chains base rest]

theorem scanFilesEntry_eq_chains (base : String) (e : FSEntry) :
    scanFilesEntry base e =
      ((chainsEntry e).filter nonHidden).map (joinChain base) := by
  match e with
  | .file n content isEx =>
    rw [scanFilesEntry, chainsEntry]
    by_cases h1 : pyStartsWith n "."
    · simp [h1, nonHidden]
    · simp [h1, nonHidden, joinChain]
  | .dir n cs =>
    rw [scanFilesEntry, chainsEntry]
    by_cases h1 : pyStartsWith n "."
    · rw [if_pos h1]
      rw [List.filter_map, List.map_map]
      have : (chainsList cs).filter (nonHidden ∘ (fun c => n :: c)) = [] := by
        rw [List.filter_eq_nil_iff]
        intro c hc
        rw [Function.comp_apply, nonHidden_cons]
        simp [h1]
      rw [this]; rfl
    · rw [if_neg h1, scanFilesList_eq_chains (base ++ "/" ++ n) cs]
      rw [List.filter_map, List.map_map]
      have hf : (chainsList cs).filter (nonHidden ∘ (fun c => n :: c)) =
          (chainsList cs).filter nonHidden := by
        apply List.filter_congr
        intro c hc
        rw [Function.comp_apply, nonHidden_cons]
        simp [h1]
      rw [hf]
      rfl

end

end RnsPageNode

namespace RnsPageNode

/-- C6: for every directory tree scanned, the page index contains exactly
the files reachable through non-hidden components whose name does not end
in the `.allowed` sidecar suffix (hidden directories pruned whole), and
the file index contains exactly the files reachable through non-hidden
components — every other regular file appears in its index. -/
theorem c6_scan_exclusions (base : String) (t : FSList) :
    scanPagesList base t =
        ((chainsList t).filter pageEligible).map (joinChain base) ∧
    scanFilesList base t =
        ((chainsList t).filter nonHidden).map (joinChain base) :=
  ⟨scanPagesList_eq_chains base t, scanFilesList_eq_chains base t⟩

/- ## String and path lemmas -/

theorem strExt {a b : String} (h : a.data = b.data) : a = b := by
  cases a; cases b; exact congrArg String.mk h

theorem strDataAppend (a b : String) : (a ++ b).data = a.data ++ b.data := rfl

theorem splitSlashChars_ne_nil (s : List Char) : splitSlashChars s ≠ [] := by
  match s with
  | [] => simp [splitSlashChars]
  | c :: rest =>
    rw [splitSlashChars]
    by_cases h : c = '/'
    · simp [h]
    · rw [if_neg h]
      cases splitSlashChars rest <;> simp

theorem splitSlashChars_no_slash (n : List Char) (h : n.contains '/' = false) :
    splitSlashChars n = [n] := by
  match n with
  | [] => rfl
  | c :: rest =>
    have hc : ¬ c = '/' := by
      rintro rfl
      simp [List.contains_cons] at h
    have hr : rest.contains '/' = false := by
      rw [List.contains_cons, Bool.or_eq_false_iff] at h
      exact h.2
    rw [splitSlashChars, if_neg hc, splitSlashChars_no_slash rest hr]

theorem splitSlashChars_append (s n : List Char) (h : n.contains '/' = false) :
    splitSlashChars (s ++ '/' :: n) = splitSlashChars s ++ [n] := by
  match s with
  | [] =>
    rw [List.nil_append]
    simp [splitSlashChars, splitSlashChars_no_slash n h]
  | c :: s' =>
    rw [List.cons_append, splitSlashChars, splitSlashChars]
    by_cases hc : c = '/'
    · rw [if_pos hc, if_pos hc, splitSlashChars_append s' n h]
      rfl
    · rw [if_neg hc, if_neg hc, splitSlashChars_append s' n h]
      cases hsp : splitSlashChars s' with
      | nil => exact absurd hsp (splitSlashChars_ne_nil s')
      | cons hd tl => rfl

theorem joinChain_data (c : List String) (base : String) :
    (joinChain base c).data =
      base.data ++ c.flatMap (fun n => '/' :: n.data) := by
  match c with
  | [] => simp [joinChain]
  | n :: c' =>
    rw [joinChain_cons, joinChain_data c' (base ++ "/" ++ n)]
    rw [strDataAppend, strDataAppend]
    simp

theorem goodName_no_slash {n : String} (h : goodName n = true) :
    n.data.contains '/' = false := by
  unfold goodName at h
  rw [Bool.and_eq_true] at h
  simpa using h.2

theorem splitSlash_joinChain (c : List String) (base : String)
    (h : ∀ n ∈ c, goodName n = true) :
    splitSlashChars (joinChain base c).data =
      splitSlashChars base.data ++ c.map String.data := by
  match c with
  | [] => simp [joinChain]
  | n :: c' =>
    rw [joinChain_cons,
        splitSlash_joinChain c' (base ++ "/" ++ n)
          (fun m hm => h m (List.mem_cons_of_mem n hm))]
    have : (base ++ "/" ++ n).data = base.data ++ '/' :: n.data := by
      rw [strDataAppend, strDataAppend]
      simp
    rw [this, splitSlashChars_append base.data n.data
          (goodName_no_slash (h n (List.mem_cons_self n c')))]
    simp

theorem foldl_normStep_plain (segs : List (List Char))
    (h : segs.all plainSeg = true) (acc : List (List Char)) :
    segs.foldl normStepSegs acc = acc ++ segs := by
  match segs with
  | [] => simp
  | seg :: rest =>
    rw [List.all_cons, Bool.and_eq_true] at h
    have hplain : ¬(seg = [] ∨ seg = ['.'] ∨ seg = ['.', '.']) := by
      have := h.1
      unfold plainSeg at this
      simpa using this
    rw [List.foldl_cons]
    have hstep : normStepSegs acc seg = acc ++ [seg] := by
      unfold normStepSegs
      rw [if_neg (fun hor => hplain (hor.elim Or.inl (fun x => Or.inr (Or.inl x)))),
          if_neg (fun hx => hplain (Or.inr (Or.inr hx)))]
    rw [hstep, foldl_normStep_plain rest h.2 (acc ++ [seg])]
    simp

theorem cleanAbs_split {base : String} (h : cleanAbsPath base = true) :
    ∃ segs, splitSlashChars base.data = [] :: segs ∧
      segs.all plainSeg = true := by
  unfold cleanAbsPath at h
  cases hsp : splitSlashChars base.data with
  | nil => rw [hsp] at h; exact absurd h (by simp)
  | cons hd tl =>
    rw [hsp] at h
    cases hd with
    | nil => exact ⟨tl, rfl, h⟩
    | cons c cs => exact absurd h (by simp)

theorem normSegments_clean {base : String} {segs : List (List Char)}
    (hsp : splitSlashChars base.data = [] :: segs)
    (hplain : segs.all plainSeg = true) :
    normSegments base = segs := by
  unfold normSegments
  rw [hsp, List.foldl_cons]
  have h0 : normStepSegs [] [] = [] := by unfold normStepSegs; simp
  rw [h0, foldl_normStep_plain segs hplain []]
  rfl

theorem plainSeg_of_good_nonhidden {n : String} (hg : goodName n = true)
    (hh : pyStartsWith n "." = false) : plainSeg n.data = true := by
  unfold goodName at hg
  rw [Bool.and_eq_true] at hg
  have hne : n.data ≠ [] := by simpa using hg.1
  unfold pyStartsWith at hh
  unfold plainSeg
  simp only [Bool.not_eq_true']
  rw [decide_eq_false_iff_not]
  intro hor
  rcases hor with h1 | h2 | h3
  · exact hne h1
  · rw [h2] at hh; simp [List.isPrefixOf] at hh
  · rw [h3] at hh; simp [List.isPrefixOf] at hh

theorem normSegments_joinChain {base : String} (c : List String)
    (hb : cleanAbsPath base = true)
    (hg : ∀ n ∈ c, goodName n = true)
    (hh : ∀ n ∈ c, pyStartsWith n "." = false) :
    normSegments (joinChain base c) = normSegments base ++ c.map String.data := by
  obtain ⟨segs, hsp, hplain⟩ := cleanAbs_split hb
  have hsplit := splitSlash_joinChain c base hg
  rw [hsp, List.cons_append] at hsplit
  have hall : (segs ++ c.map String.data).all plainSeg = true := by
    rw [List.all_append, Bool.and_eq_true]
    refine ⟨hplain, ?_⟩
    rw [List.all_eq_true]
    intro seg hseg
    obtain ⟨n, hn, rfl⟩ := List.mem_map.mp hseg
    exact plainSeg_of_good_nonhidden (hg n hn) (hh n hn)
  have h0 : normStepSegs [] [] = [] := by unfold normStepSegs; simp
  have h1 : normSegments (joinChain base c) = segs ++ c.map String.data := by
    unfold normSegments
    rw [hsplit, List.foldl_cons, h0, foldl_normStep_plain _ hall []]
    exact List.nil_append _
  rw [h1, normSegments_clean hsp hplain]

theorem isPrefixOf_append_self {α : Type} [BEq α] [LawfulBEq α]
    (l r : List α) : l.isPrefixOf (l ++ r) = true := by
  match l with
  | [] => simp [List.isPrefixOf]
  | a :: l' => simp [List.isPrefixOf, isPrefixOf_append_self l' r]

end RnsPageNode

namespace RnsPageNode

mutual

theorem chainsList_goodName (es : FSList) (h : namesOkList es = true) :
    ∀ c ∈ chainsList es, ∀ n ∈ c, goodName n = true := by
  match es with
  | .nil => intro c hc; rw [chainsList] at hc; simp at hc
  | .cons e rest =>
    rw [namesOkList, Bool.and_eq_true] at h
    intro c hc
    rw [chainsList, List.mem_append] at hc
    cases hc with
    | inl hx => exact chainsEntry_goodName e h.1 c hx
    | inr hx => exact chainsList_goodName rest h.2 c hx

theorem chainsEntry_goodName (e : FSEntry) (h : namesOkEntry e = true) :
    ∀ c ∈ chainsEntry e, ∀ n ∈ c, goodName n = true := by
  match e with
  | .file nm content isEx =>
    rw [namesOkEntry] at h
    intro c hc
    rw [chainsEntry, List.mem_singleton] at hc
    subst hc
    intro n hn
    rw [List.mem_singleton] at hn
    subst hn
    exact h
  | .dir nm cs =>
    rw [namesOkEntry, Bool.and_eq_true] at h
    intro c hc
    rw [chainsEntry, List.mem_map] at hc
    obtain ⟨c', hc', rfl⟩ := hc
    intro n hn
    rw [List.mem_cons] at hn
    cases hn with
    | inl hx => subst hx; exact h.1
    | inr hx => exact chainsList_goodName cs h.2 c' hc' n hx

end

theorem nonHidden_mem {c : List String} (h : nonHidden c = true) :
    ∀ n ∈ c, pyStartsWith n "." = false := by
  unfold nonHidden at h
  rw [List.all_eq_true] at h
  intro n hn
  have hx := h n hn
  simpa using hx

theorem replaceFirst_leading (old new r : List Char) (hne : old ≠ []) :
    replaceFirstChars old new (old ++ r) = new ++ r := by
  match old with
  | [] => exact absurd rfl hne
  | c :: cs =>
    have hp : (c :: cs).isPrefixOf (c :: (cs ++ r)) = true := by
      have hx := isPrefixOf_append_self (c :: cs) r
      rwa [List.cons_append] at hx
    rw [List.cons_append, replaceFirstChars, if_pos hp]
    congr 1
    rw [List.length_cons, List.drop_succ_cons, List.drop_left]

theorem route_filePath (root pre : String) (hpre : pre.data ≠ []) (rel : String) :
    pyReplaceFirst (pre ++ rel) pre root = root ++ rel := by
  apply strExt
  show replaceFirstChars pre.data root.data (pre ++ rel).data = (root ++ rel).data
  rw [strDataAppend, strDataAppend]
  exact replaceFirst_leading pre.data root.data rel.data hpre

theorem route_within (root : String) (hroot : cleanAbsPath root = true)
    {c : List String} (hg : ∀ n ∈ c, goodName n = true)
    (hh : ∀ n ∈ c, pyStartsWith n "." = false)
    (pre : String) (hpre : pre.data ≠ []) :
    pyReplaceFirst (pre ++ pySlice (joinChain root c) (pyLen root)) pre root
        = joinChain root c ∧
    withinRoot root (joinChain root c) = true := by
  have hdata := joinChain_data c root
  have hslice : pySlice (joinChain root c) (pyLen root)
      = ⟨c.flatMap (fun n => '/' :: n.data)⟩ := by
    unfold pySlice pyLen
    apply congrArg String.mk
    rw [hdata, List.drop_left]
  constructor
  · rw [hslice, route_filePath root pre hpre _]
    apply strExt
    rw [strDataAppend, hdata]
  · unfold withinRoot
    rw [normSegments_joinChain c hroot hg hh]
    exact isPrefixOf_append_self _ _

end RnsPageNode

namespace RnsPageNode

/-- A host file system with a file outside the served roots, reachable
at `/srv/secret`. -/
def fsOutside : FS := [(normSegments "/srv/secret", ⟨"topsecret", false⟩)]

/-- C1 counterexample: for the traversal request path `/page/../secret`
(which contains a `..` segment), `serve_page` under root `/srv/pages`
resolves to a filesystem path *outside* the canonical root and serves its
content rather than rejecting the request; `serve_file` behaves the same
under `/srv/files`.  This refutes the claim that such paths are rejected
by the serving functions. -/
theorem c1_counterexample :
    ['.', '.'] ∈ splitSlashChars "/page/../secret".data ∧
    withinRoot "/srv/pages" (pageFilePath "/srv/pages" "/page/../secret") = false ∧
    servePage fsOutside [] (fun _ _ => none) "/srv/pages" "/page/../secret" none
      = Except.ok "topsecret" ∧
    withinRoot "/srv/files" (fileFilePath "/srv/files" "/file/../secret") = false ∧
    serveFile fsOutside "/srv/files" "/file/../secret"
      = Except.ok ("topsecret", "secret") := by
  refine ⟨by decide, by decide, by decide, by decide, by decide⟩

/-- C1 (amended): `serve_page` and `serve_file` themselves apply no path
check, but every route the node actually registers — the scan results
prefixed with `/page` / `/file` — resolves back inside the canonical
served root, provided the configured root is a clean absolute path and
directory entry names are well formed.  Since the transport library
dispatches a handler only for registered routes, no dispatched request is
served from outside the root; a traversal path handed directly to the
handlers, however, escapes (see the counterexample). -/
theorem c1_registered_routes_within_root (root : String) (t : FSList)
    (hroot : cleanAbsPath root = true) (hnames : namesOkList t = true) :
    (∀ r ∈ pageRoutes root t, withinRoot root (pageFilePath root r) = true) ∧
    (∀ r ∈ fileRoutes root t, withinRoot root (fileFilePath root r) = true) := by
  constructor
  · intro r hr
    unfold pageRoutes at hr
    obtain ⟨full, hfull, rfl⟩ := List.mem_map.mp hr
    rw [scanPagesList_eq_chains] at hfull
    obtain ⟨c, hcmem, rfl⟩ := List.mem_map.mp hfull
    obtain ⟨hcin, helig⟩ := List.mem_filter.mp hcmem
    have hg := chainsList_goodName t hnames c hcin
    have hnhB : nonHidden c = true := by
      unfold pageEligible at helig
      rw [Bool.and_eq_true] at helig
      exact helig.1
    have hh := nonHidden_mem hnhB
    have hw := route_within root hroot hg hh "/page" (by decide)
    unfold pageFilePath
    rw [hw.1]
    exact hw.2
  · intro r hr
    unfold fileRoutes at hr
    obtain ⟨full, hfull, rfl⟩ := List.mem_map.mp hr
    rw [scanFilesList_eq_chains] at hfull
    obtain ⟨c, hcmem, rfl⟩ := List.mem_map.mp hfull
    obtain ⟨hcin, hnhB⟩ := List.mem_filter.mp hcmem
    have hg := chainsList_goodName t hnames c hcin
    have hh := nonHidden_mem hnhB
    have hw := route_within root hroot hg hh "/file" (by decide)
    unfold fileFilePath
    rw [hw.1]
    exact hw.2

/-- A small concrete pages tree for witnesses. -/
def treeW : FSList :=
  .cons (.file "hello.mu" "hi" false)
    (.cons (.dir "sub" (.cons (.file "inner.mu" "deep" false) .nil)) .nil)

/-- Witness for the amended C1 theorem at a concrete root and tree. -/
theorem c1_registered_routes_within_root_witness :
    cleanAbsPath "/srv/pages" = true ∧ namesOkList treeW = true ∧
    withinRoot "/srv/pages" (pageFilePath "/srv/pages" "/page/sub/inner.mu") = true :=
  ⟨by decide, by decide,
   (c1_registered_routes_within_root "/srv/pages" treeW (by decide) (by decide)).1
     "/page/sub/inner.mu" (by decide)⟩

end RnsPageNode

namespace RnsPageNode

/-- A pages root holding an executable script page at `/srv/pages/env.mu`
whose shell text echoes the `field_x` environment variable. -/
def fsScript : FS :=
  [(normSegments "/srv/pages/env.mu", ⟨"#!/bin/sh\necho \"$field_x\"", true⟩)]

/-- An executor modelling a `/bin/sh` script that echoes one environment
variable: it prints the variable's value (empty when unset) and a newline,
exiting 0. -/
def echoExec (k : String) : Exec :=
  fun _ env => some (((env.lookup k).getD "") ++ "\n", 0)

/-- C2: the code calls `subprocess.run([file_path], stdout=subprocess.PIPE)`
with *no* `env` argument (main.py:291) and never reads the request payload,
so the script inherits the full host environment and sees no payload
variable: with payload `field_x=hello`, a script echoing `field_x` returns
`"\n"` (not `"hello\n"`), while a script echoing the host's `HOME` sees it
(`"/root\n"`), contradicting the claimed allow-list environment.  The
repository's own test client (tests/test_client.py) expects the payload
variables to be visible. -/
theorem c2_env_inherited_not_filtered :
    servePage fsScript [("HOME", "/root")] (echoExec "field_x") "/srv/pages"
        "/page/env.mu" (some [("field_x", "hello")]) = Except.ok "\n" ∧
    servePage fsScript [("HOME", "/root")] (echoExec "field_x") "/srv/pages"
        "/page/env.mu" (some [("field_x", "hello")]) ≠ Except.ok "hello\n" ∧
    servePage fsScript [("HOME", "/root")] (echoExec "HOME") "/srv/pages"
        "/page/env.mu" (some [("field_x", "hello")]) = Except.ok "/root\n" :=
  ⟨by decide, by decide, by decide⟩

/-- C3: a page request whose path names no existing page makes `serve_page`
raise `FileNotFoundError` (the final `open` at main.py:295 is unguarded),
which propagates as a transport-level error; the built-in not-authorized
content `DEFAULT_NOTALLOWED` (defined at main.py:25 but never used) is not
returned. -/
theorem c3_missing_page_raises :
    servePage [] [] (fun _ _ => none) "/srv/pages" "/page/missing.mu" none
      = Except.error "FileNotFoundError" ∧
    servePage [] [] (fun _ _ => none) "/srv/pages" "/page/missing.mu" none
      ≠ Except.ok DEFAULT_NOTALLOWED :=
  ⟨by decide, by decide⟩

/-- C4 counterexample: when the script exits with a *non-zero* status,
`serve_page` still returns the captured standard output (main.py:291-292
never consults `result.returncode`), not the file's raw bytes as claimed. -/
theorem c4_counterexample :
    servePage fsScript [] (fun _ _ => some ("partial", 1)) "/srv/pages"
        "/page/env.mu" none = Except.ok "partial" ∧
    servePage fsScript [] (fun _ _ => some ("partial", 1)) "/srv/pages"
        "/page/env.mu" none ≠ Except.ok "#!/bin/sh\necho \"$field_x\"" :=
  ⟨by decide, by decide⟩

/-- C4 (amended): for an eligible script page, a *launch failure* of the
subprocess falls back to serving the file's raw bytes and propagates no
error, but a run that completes returns its captured standard output
whatever its exit status — the non-zero-exit fallback claimed by the spec
does not exist. -/
theorem c4_launch_failure_fallback (fs : FS) (hostEnv : List (String × String))
    (ex : Exec) (pagespath path : String) (data : Option (List (String × String)))
    (fd : FileData)
    (hread : fsLookup fs (normSegments (pageFilePath pagespath path)) = some fd)
    (hscript : pyStartsWith fd.content "#!" = true) (hexec : fd.isExec = true) :
    (ex (normSegments (pageFilePath pagespath path)) hostEnv = none →
      servePage fs hostEnv ex pagespath path data = Except.ok fd.content) ∧
    (∀ out code,
      ex (normSegments (pageFilePath pagespath path)) hostEnv = some (out, code) →
      servePage fs hostEnv ex pagespath path data = Except.ok out) := by
  constructor
  · intro hnone
    simp [servePage, hread, hscript, hexec, subprocessEnv, hnone]
  · intro out code hsome
    simp [servePage, hread, hscript, hexec, subprocessEnv, hsome]

/-- Witness for the amended C4 theorem: a concrete launch failure serves
the script file's raw bytes. -/
theorem c4_launch_failure_fallback_witness :
    fsLookup fsScript (normSegments (pageFilePath "/srv/pages" "/page/env.mu"))
      = some ⟨"#!/bin/sh\necho \"$field_x\"", true⟩ ∧
    servePage fsScript [] (fun _ _ => none) "/srv/pages" "/page/env.mu" none
      = Except.ok "#!/bin/sh\necho \"$field_x\"" :=
  ⟨by decide,
   (c4_launch_failure_fallback fsScript [] (fun _ _ => none) "/srv/pages"
      "/page/env.mu" none ⟨"#!/bin/sh\necho \"$field_x\"", true⟩
      (by decide) (by decide) (by decide)).1 rfl⟩

/-- A pages tree with two visible pages, used to exhibit a partial
mid-rebuild index state. -/
def treeC5 : FSList :=
  .cons (.file "a.mu" "A" false) (.cons (.file "b.mu" "B" false) .nil)

/-- C5 counterexample: during `register_pages` the live `servedpages` list
passes through the empty state (right after `self.servedpages = []`),
which is neither the complete old index `["/p/old.mu"]` nor the complete
new index — the table is rebuilt in place, not swapped in atomically as a
fully built table. -/
theorem c5_counterexample :
    ([] : List String) ∈ registerPagesTrace ["/p/old.mu"] (scanPagesList "/p" treeC5) ∧
    ([] : List String) ≠ ["/p/old.mu"] ∧
    ([] : List String) ≠ scanPagesList "/p" treeC5 :=
  ⟨by decide, by decide, by decide⟩

/-- C5 (amended): the rebuild clears the live list and appends one entry
at a time, so the successive states of `servedpages` are the old table
followed by every prefix of the new table — partial states exist, and the
swap is not atomic.  The whole rebuild runs inside `self._lock`
(main.py:69-71), and the trace starts at the complete old table and ends
at the complete new one, so a reader serialised through that lock observes
only a complete index; the code's dispatch path never reads this list at
all. -/
theorem c5_rebuild_in_place (old scanned : List String) :
    (registerPagesTrace old scanned).head? = some old ∧
    (registerPagesTrace old scanned).getLast? = some scanned ∧
    ∀ s ∈ registerPagesTrace old scanned,
      s = old ∨ ∃ i, i ≤ scanned.length ∧ s = scanned.take i := by
  refine ⟨rfl, ?_, ?_⟩
  · rw [registerPagesTrace, List.range_succ, List.map_append]
    rw [show (List.map (fun i => scanned.take i) [scanned.length])
          = [scanned.take scanned.length] from rfl,
        List.take_length]
    rw [← List.cons_append, List.getLast?_concat]
  · intro s hs
    rw [registerPagesTrace, List.mem_cons] at hs
    cases hs with
    | inl h => exact Or.inl h
    | inr h =>
      obtain ⟨i, hi, rfl⟩ := List.mem_map.mp h
      rw [List.mem_range] at hi
      exact Or.inr ⟨i, by omega, rfl⟩

end RnsPageNode

namespace RnsPageNode

theorem rootIndexFile_chain {t : FSList} {fd : FileData}
    (h : rootIndexFile t = some fd) : ["index.mu"] ∈ chainsList t := by
  match t with
  | .nil => rw [rootIndexFile] at h; exact absurd h (by simp)
  | .cons (.file nm content isEx) rest =>
    rw [rootIndexFile] at h
    by_cases hn : nm = "index.mu"
    · subst hn
      rw [chainsList, chainsEntry]
      exact List.mem_append_left _ (List.mem_singleton.mpr rfl)
    · rw [if_neg hn] at h
      exact List.mem_append_right _ (rootIndexFile_chain h)
  | .cons (.dir nm cs) rest =>
    rw [rootIndexFile] at h
    exact List.mem_append_right _ (rootIndexFile_chain h)

theorem no_root_index_chain {t : FSList} (h : rootIndexFile t = none) :
    ["index.mu"] ∉ chainsList t := by
  match t with
  | .nil => rw [chainsList]; simp
  | .cons (.file nm content isEx) rest =>
    rw [rootIndexFile] at h
    by_cases hn : nm = "index.mu"
    · rw [if_pos hn] at h; exact absurd h (by simp)
    · rw [if_neg hn] at h
      intro hmem
      rw [chainsList, List.mem_append] at hmem
      cases hmem with
      | inl hx =>
        rw [chainsEntry, List.mem_singleton] at hx
        exact hn (List.cons.inj hx.symm).1
      | inr hx => exact no_root_index_chain h hx
  | .cons (.dir nm cs) rest =>
    rw [rootIndexFile] at h
    intro hmem
    rw [chainsList, List.mem_append] at hmem
    cases hmem with
    | inl hx =>
      rw [chainsEntry, List.mem_map] at hx
      obtain ⟨c', hc', heq⟩ := hx
      have : c' = [] := (List.cons.inj heq.symm).2.symm
      exact chainsList_ne_nil cs c' hc' this
    | inr hx => exact no_root_index_chain h hx

theorem index_route_eq (root : String) :
    "/page" ++ pySlice (joinChain root ["index.mu"]) (pyLen root)
      = "/page/index.mu" := by
  have hdata := joinChain_data ["index.mu"] root
  have hflat : (["index.mu"] : List String).flatMap (fun n => '/' :: n.data)
      = '/' :: "index.mu".data := by decide
  apply strExt
  rw [strDataAppend]
  show "/page".data ++ (joinChain root ["index.mu"]).data.drop root.data.length
      = "/page/index.mu".data
  rw [hdata, hflat, List.drop_left]
  decide

theorem index_route_mem (root : String) {t : FSList} {fd : FileData}
    (h : rootIndexFile t = some fd) :
    "/page/index.mu" ∈ pageRoutes root t := by
  unfold pageRoutes
  rw [scanPagesList_eq_chains, ← index_route_eq root]
  exact List.mem_map_of_mem _ (List.mem_map_of_mem _
    (List.mem_filter.mpr ⟨rootIndexFile_chain h, by decide⟩))

theorem index_route_not_mem (root : String) {t : FSList}
    (hnames : namesOkList t = true) (h : rootIndexFile t = none) :
    "/page/index.mu" ∉ pageRoutes root t := by
  intro hmem
  unfold pageRoutes at hmem
  obtain ⟨full, hfull, heq⟩ := List.mem_map.mp hmem
  rw [scanPagesList_eq_chains] at hfull
  obtain ⟨c, hcmem, rfl⟩ := List.mem_map.mp hfull
  obtain ⟨hcin, helig⟩ := List.mem_filter.mp hcmem
  have hdata := joinChain_data c root
  have hflat : c.flatMap (fun n => '/' :: n.data) = '/' :: "index.mu".data := by
    have h1 := congrArg String.data heq
    rw [strDataAppend] at h1
    have h2 : (pySlice (joinChain root c) (pyLen root)).data
        = (joinChain root c).data.drop root.data.length := rfl
    rw [h2, hdata, List.drop_left] at h1
    have h3 : "/page/index.mu".data = "/page".data ++ ('/' :: "index.mu".data) := by
      decide
    rw [h3] at h1
    exact List.append_cancel_left h1
  cases c with
  | nil => exact chainsList_ne_nil t [] hcin rfl
  | cons n c' =>
    cases c' with
    | nil =>
      have hn : n = "index.mu" := by
        apply strExt
        have hx : ('/' :: n.data : List Char) = '/' :: "index.mu".data := by
          simpa [List.flatMap] using hflat
        exact (List.cons.inj hx).2
      subst hn
      exact no_root_index_chain h hcin
    | cons m c'' =>
      rw [List.flatMap_cons, List.cons_append] at hflat
      have h2 := (List.cons.inj hflat).2
      have hmem2 : '/' ∈ n.data ++ (m :: c'').flatMap (fun x => '/' :: x.data) := by
        refine List.mem_append_right _ ?_
        rw [List.flatMap_cons]
        exact List.mem_append_left _ (List.mem_cons_self '/' m.data)
      rw [h2] at hmem2
      exact absurd hmem2 (by decide)

/-- The pages root holding only an *executable script* `index.mu`. -/
def treeIdxScript : FSList := .cons (.file "index.mu" "#!/bin/sh\necho hi" true) .nil

/-- The host files matching `treeIdxScript` under `/srv/pages`. -/
def fsIdxScript : FS :=
  [(normSegments "/srv/pages/index.mu", ⟨"#!/bin/sh\necho hi", true⟩)]

/-- C7 counterexample: a real `index.mu` exists, but because it is an
executable script the request for `/page/index.mu` returns the script's
standard output, not the file's content as the claim states. -/
theorem c7_counterexample :
    rootIndexFile treeIdxScript = some ⟨"#!/bin/sh\necho hi", true⟩ ∧
    dispatchPage fsIdxScript [] (fun _ _ => some ("hi\n", 0)) "/srv/pages"
        treeIdxScript "/page/index.mu" none = some (Except.ok "hi\n") ∧
    dispatchPage fsIdxScript [] (fun _ _ => some ("hi\n", 0)) "/srv/pages"
        treeIdxScript "/page/index.mu" none
      ≠ some (Except.ok "#!/bin/sh\necho hi") :=
  ⟨by decide, by decide, by decide⟩

/-- C7 (amended): when the pages root has no real `index.mu`, the
`/page/index.mu` request is handled by `serve_default_index` and returns
exactly the built-in default-index text; when a real `index.mu` exists and
is not served as a script (its content does not begin with the interpreter
marker, or its execute bit is clear), the request returns that file's
content; a script index file is instead served by executing it (see the
counterexample). -/
theorem c7_default_index (pagespath : String) (t : FSList) (fs : FS)
    (hostEnv : List (String × String)) (ex : Exec)
    (data : Option (List (String × String)))
    (hnames : namesOkList t = true) :
    (hasIndexFile t = false →
      dispatchPage fs hostEnv ex pagespath t "/page/index.mu" data
        = some (Except.ok DEFAULT_INDEX)) ∧
    (∀ content isEx, rootIndexFile t = some ⟨content, isEx⟩ →
      fsLookup fs (normSegments (pageFilePath pagespath "/page/index.mu"))
        = some ⟨content, isEx⟩ →
      (pyStartsWith content "#!" = false ∨ isEx = false) →
      dispatchPage fs hostEnv ex pagespath t "/page/index.mu" data
        = some (Except.ok content)) := by
  constructor
  · intro hno
    have hnone : rootIndexFile t = none := by
      cases hx : rootIndexFile t with
      | none => rfl
      | some fd => rw [hasIndexFile, hx] at hno; exact absurd hno (by simp)
    have hnotmem := index_route_not_mem pagespath hnames hnone
    unfold dispatchPage
    rw [if_neg hnotmem, if_pos ⟨hno, rfl⟩]
  · intro content isEx hroot hfs hns
    have hmem := index_route_mem pagespath hroot
    unfold dispatchPage
    rw [if_pos hmem]
    cases hns with
    | inl h => simp [servePage, hfs, h]
    | inr h => simp [servePage, hfs, h]

/-- The pages root holding a plain-text `index.mu`. -/
def treeIdxStatic : FSList := .cons (.file "index.mu" ">Hello" false) .nil

/-- The host files matching `treeIdxStatic` under `/srv/pages`. -/
def fsIdxStatic : FS := [(normSegments "/srv/pages/index.mu", ⟨">Hello", false⟩)]

/-- Witness for the amended C7 theorem: a pages root without `index.mu`
serves the built-in text, and a root with a plain `index.mu` containing
`>Hello` serves `>Hello`. -/
theorem c7_default_index_witness :
    namesOkList treeW = true ∧
    dispatchPage [] [] (fun _ _ => none) "/srv/pages" treeW "/page/index.mu" none
      = some (Except.ok DEFAULT_INDEX) ∧
    dispatchPage fsIdxStatic [] (fun _ _ => none) "/srv/pages" treeIdxStatic
        "/page/index.mu" none = some (Except.ok ">Hello") :=
  ⟨by decide,
   (c7_default_index "/srv/pages" treeW [] [] (fun _ _ => none) none (by decide)).1
     (by decide),
   (c7_default_index "/srv/pages" treeIdxStatic fsIdxStatic [] (fun _ _ => none)
       none (by decide)).2 ">Hello" false (by decide) (by decide)
     (Or.inr (by decide))⟩

end RnsPageNode

namespace RnsPageNode

/- ## Ring-buffer lemmas -/

theorem pushRing_length {α : Type} {q : List α} (h : q.length ≤ 100) (x : α) :
    (pushRing 100 q x).length ≤ 100 := by
  unfold pushRing
  by_cases hl : q.length < 100
  · rw [if_pos hl, List.length_append]
    simp
    omega
  · rw [if_neg hl, List.length_append, List.length_tail]
    simp
    omega

theorem foldl_pushRing_drop {α : Type} (xs : List α) (q : List α)
    (h : q.length ≤ 100) :
    xs.foldl (pushRing 100) q = (q ++ xs).drop ((q ++ xs).length - 100) := by
  induction xs generalizing q with
  | nil =>
    rw [List.foldl_nil, List.append_nil]
    have hz : q.length - 100 = 0 := by omega
    rw [hz, List.drop_zero]
  | cons x xs ih =>
    rw [List.foldl_cons, ih (pushRing 100 q x) (pushRing_length h x)]
    by_cases hl : q.length < 100
    · have hpush : pushRing 100 q x = q ++ [x] := by
        unfold pushRing; rw [if_pos hl]
      rw [hpush, List.append_assoc, List.singleton_append]
    · have h100 : q.length = 100 := by omega
      have hq_ne : q ≠ [] := by
        intro hq; rw [hq] at h100; simp at h100
      have hpush : pushRing 100 q x = q.tail ++ [x] := by
        unfold pushRing; rw [if_neg hl]
      rw [hpush]
      have e1 : (q.tail ++ [x]) ++ xs = (q ++ (x :: xs)).drop 1 := by
        rw [List.append_assoc, List.singleton_append,
            List.drop_append_of_le_length (by omega : 1 ≤ q.length),
            List.drop_one]
      rw [e1, List.drop_drop]
      have hL : (q ++ x :: xs).length = 101 + xs.length := by
        rw [List.length_append, List.length_cons, h100]; omega
      congr 1
      rw [List.length_drop, hL]
      omega

theorem mem_of_getLastSome {α : Type} {l : List α} {a : α}
    (h : l.getLast? = some a) : a ∈ l := by
  match l with
  | [] => exact absurd h (by simp)
  | [x] =>
    rw [List.getLast?_singleton] at h
    rw [Option.some.injEq] at h
    subst h
    exact List.mem_singleton.mpr rfl
  | x :: y :: rest =>
    rw [List.getLast?_cons_cons] at h
    exact List.mem_cons_of_mem x (mem_of_getLastSome h)

/-- C8: starting from any ring state within capacity, any sequence of
insertions keeps the recent-request ring at no more than its fixed
capacity of 100; the ring always holds exactly the last 100 inserted
elements, so after 101 insertions into an empty ring the first-inserted
entry is absent (when not re-inserted) and the newest is present. -/
theorem c8_ring_bounded {α : Type} (q xs : List α) (hq : q.length ≤ 100) :
    ((xs.foldl (pushRing 100) q).length ≤ 100) ∧
    (xs.foldl (pushRing 100) q = (q ++ xs).drop ((q ++ xs).length - 100)) ∧
    (∀ x0 rest, q = [] → xs = x0 :: rest → rest.length = 100 →
      (x0 ∉ rest → x0 ∉ xs.foldl (pushRing 100) q) ∧
      (∀ xl, rest.getLast? = some xl → xl ∈ xs.foldl (pushRing 100) q)) := by
  have hd := foldl_pushRing_drop xs q hq
  refine ⟨?_, hd, ?_⟩
  · rw [hd, List.length_drop]; omega
  · intro x0 rest hqe hxs hlen
    subst hqe; subst hxs
    have hr : (x0 :: rest).foldl (pushRing 100) [] = rest := by
      rw [hd, List.nil_append, List.length_cons, hlen]
      simp
    rw [hr]
    exact ⟨fun hnot hmem => absurd hmem hnot,
           fun xl hxl => mem_of_getLastSome hxl⟩

/-- Witness for C8: after inserting `0, 1, …, 100` (101 elements) into an
empty ring, the ring is within capacity, `0` has been evicted and `100` is
present. -/
theorem c8_ring_bounded_witness :
    (((0 : Nat) :: List.range' 1 100).foldl (pushRing 100) []).length ≤ 100 ∧
    (0 : Nat) ∉ ((0 : Nat) :: List.range' 1 100).foldl (pushRing 100) [] ∧
    (100 : Nat) ∈ ((0 : Nat) :: List.range' 1 100).foldl (pushRing 100) [] := by
  have h := c8_ring_bounded ([] : List Nat) (0 :: List.range' 1 100) (by decide)
  have h3 := h.2.2 0 (List.range' 1 100) rfl rfl (by decide)
  exact ⟨h.1, h3.1 (by decide), h3.2 100 (by decide)⟩

end RnsPageNode

namespace RnsPageNode

/-- C9: a request with an absent caller identity is still fully recorded:
the per-kind total and the per-path counter increment by one, and both the
per-peer tally and the appended recent-request entry use the literal peer
key `"anonymous"`; nothing is skipped and no error is raised. -/
theorem c9_anonymous_recorded (appData : String → Option String) (fmt : TimeFmt)
    (rt path : String) (t : Nat) (s : Stats)
    (hrt : rt = "page" ∨ rt = "file") :
    (recordRequest appData fmt rt path none t s).requestsByPeer "anonymous"
        = s.requestsByPeer "anonymous" + 1 ∧
    (recordRequest appData fmt rt path none t s).recentRequests
        = pushRing 100 s.recentRequests
            ⟨rt, path, "anonymous", "anonymous", t, fmt.isoStr t⟩ ∧
    (rt = "page" →
      (recordRequest appData fmt rt path none t s).totalPageRequests
          = s.totalPageRequests + 1 ∧
      (recordRequest appData fmt rt path none t s).pageRequestsByPath path
          = s.pageRequestsByPath path + 1) ∧
    (rt = "file" →
      (recordRequest appData fmt rt path none t s).totalFileRequests
          = s.totalFileRequests + 1 ∧
      (recordRequest appData fmt rt path none t s).fileRequestsByPath path
          = s.fileRequestsByPath path + 1) := by
  cases hrt with
  | inl h =>
    subst h
    refine ⟨?_, ?_, fun _ => ⟨?_, ?_⟩, fun h2 => absurd h2 (by decide)⟩ <;>
      simp [recordRequest, peerStrings, bump]
  | inr h =>
    subst h
    refine ⟨?_, ?_, fun h2 => absurd h2 (by decide), fun _ => ⟨?_, ?_⟩⟩ <;>
      simp [recordRequest, peerStrings, bump]

/-- A trivial time formatter for witnesses. -/
def fmt0 : TimeFmt := ⟨fun _ => "", fun _ => "", fun _ => ""⟩

/-- Witness for C9: recording a page request with no remote identity on a
fresh stats structure bumps the `"anonymous"` peer tally to one. -/
theorem c9_anonymous_recorded_witness :
    ("page" = "page" ∨ "page" = "file") ∧
    (recordRequest (fun _ => none) fmt0 "page" "/page/x.mu" none 5
        (initStats 0)).requestsByPeer "anonymous"
      = (initStats 0).requestsByPeer "anonymous" + 1 :=
  ⟨Or.inl rfl,
   (c9_anonymous_recorded (fun _ => none) fmt0 "page" "/page/x.mu" 5
      (initStats 0) (Or.inl rfl)).1⟩

/- ## Connection-counter lemmas -/

theorem onLinkClosed_active_nonneg (l : Link) {s : Stats}
    (h : 0 ≤ s.activeConnections) :
    0 ≤ (onLinkClosed l s).activeConnections := by
  unfold onLinkClosed
  cases l.linkId with
  | none => exact h
  | some b =>
    dsimp only
    by_cases hc : s.connectedPeers.any (fun e => e.1 == PyKey.bytes b) = true
    · rw [if_pos hc]
      exact le_max_left 0 _
    · rw [if_neg hc]
      exact h

theorem runEvents_active_nonneg (appData : String → Option String)
    (evs : List NodeEvent) (s : Stats) (h : 0 ≤ s.activeConnections) :
    0 ≤ (runEvents appData s evs).activeConnections := by
  induction evs generalizing s with
  | nil => exact h
  | cons e evs ih =>
    unfold runEvents
    rw [List.foldl_cons]
    apply ih
    cases e with
    | connect l t =>
      show 0 ≤ (onConnect appData l t s).activeConnections
      have hx : (onConnect appData l t s).activeConnections
          = s.activeConnections + 1 := rfl
      rw [hx]
      omega
    | close l => exact onLinkClosed_active_nonneg l h

/-- C10: starting from a fresh node, after any sequence of link
establishments and closures the active-connection counter is never
negative; and closing a link whose raw id does not occur among the keys of
the connected-peers table leaves the whole statistics state — in
particular `active_connections` and `connected_peers` — unchanged. -/
theorem c10_connection_invariants (appData : String → Option String)
    (t0 : Nat) (evs : List NodeEvent) :
    0 ≤ (runEvents appData (initStats t0) evs).activeConnections ∧
    (∀ (l : Link) (s : Stats) (b : List Nat), l.linkId = some b →
      (∀ e ∈ s.connectedPeers, e.1 ≠ PyKey.bytes b) →
      onLinkClosed l s = s) := by
  refine ⟨runEvents_active_nonneg appData evs (initStats t0) (by simp [initStats]), ?_⟩
  intro l s b hid hno
  unfold onLinkClosed
  rw [hid]
  have hfalse : s.connectedPeers.any (fun e => e.1 == PyKey.bytes b) = false := by
    rw [List.any_eq_false]
    intro e he
    rw [Bool.not_eq_true, beq_eq_false_iff_ne]
    exact hno e he
  simp [hfalse]

/-- A link with a raw byte id, used for the C10 witness. -/
def linkA : Link := ⟨some [1, 2], none⟩

/-- Witness for C10: one connect followed by one close (whose raw-bytes id
is absent from the table keyed by hex strings) keeps the counter
non-negative, and closing on a fresh state changes nothing. -/
theorem c10_connection_invariants_witness :
    0 ≤ (runEvents (fun _ => none) (initStats 0)
        [NodeEvent.connect linkA 5, NodeEvent.close linkA]).activeConnections ∧
    onLinkClosed linkA (initStats 0) = initStats 0 :=
  ⟨(c10_connection_invariants (fun _ => none) 0
      [NodeEvent.connect linkA 5, NodeEvent.close linkA]).1,
   (c10_connection_invariants (fun _ => none) 0 []).2 linkA (initStats 0) [1, 2]
     rfl (by simp [initStats])⟩

end RnsPageNode
